import Mathlib

/-!
Verification development for the file-selection gate of the `woke` source
scanner: the rule-set composition logic (`pkg/config`) and the
ignore-matching subsystem (`pkg/ignore`).

Go strings that are manipulated character by character (paths, ignore
lines) are modelled as `List Char`; strings used only for equality tests
(rule names, file names) are modelled as Lean `String`.  Go slices are
Lean lists.  Fallible operations return an explicit error component.
-/

namespace Woke

/-- Character-list view of a string literal, for paths and ignore lines. -/
def str (s : String) : List Char := s.data

/-- `os.PathSeparator` on the target platform. -/
def pathSep : Char := '/'

/-- Go `strings.HasSuffix s suffix`. -/
def strHasSuffix (s suffix : List Char) : Bool := suffix.isSuffixOf s

/-- Go `strings.Split s sep` for a one-character separator `sep`:
splits on every occurrence, keeping empty fields. -/
def splitChar (sep : Char) : List Char → List (List Char)
  | [] => [[]]
  | c :: rest =>
    let r := splitChar sep rest
    if c = sep then [] :: r
    else
      match r with
      | [] => [[c]]
      | h :: t => (c :: h) :: t

/-- The splitting step of Go `strings.SplitN s sep 2` for non-empty `sep`:
`some (before, after)` at the first occurrence of `sep` in `s`,
`none` when `sep` does not occur. -/
def splitFirst (sep : List Char) : List Char → Option (List Char × List Char)
  | [] => if sep.isPrefixOf ([] : List Char) then some ([], []) else none
  | c :: rest =>
    if sep.isPrefixOf (c :: rest) then some ([], (c :: rest).drop sep.length)
    else (splitFirst sep rest).map (fun p => (c :: p.1, p.2))

/-- Modelled from the spec: `util.FilterEmptyStrings` (the `util` package is
not part of the examined sources) — discards empty segments. -/
def FilterEmptyStrings (l : List (List Char)) : List (List Char) :=
  l.filter (fun s => !s.isEmpty)

/-! ## Rule-set composition (`pkg/config`)

`rule.Rule` is an external collaborator; per the spec's data model it is
identified by a unique name and carries a set of category tags.  Only the
projection that `Config`'s code reads is modelled: `Name`, and the
categories consulted by `ContainsCategory`.  (`SetRegexp` and
`SetIncludeNote` mutate per-rule options that the composition logic never
reads, so they do not appear in the model.) -/

structure Rule where
  Name : String
  Categories : List String
deriving DecidableEq, Repr

/-- Modelled from the spec: `rule.ContainsCategory` (external collaborator) —
"Rules are matched against exclusion categories by simple membership". -/
def Rule.ContainsCategory (r : Rule) (c : String) : Bool :=
  r.Categories.contains c

structure Config where
  Rules : List Rule
  IgnoreFiles : List String
  SuccessExitMessage : Option String
  IncludeNote : Bool
  ExcludeCategories : List String
deriving Repr

/-- `Config.GetSuccessExitMessage`: the built-in message when no custom one
is configured, the configured string otherwise. -/
def Config.GetSuccessExitMessage (c : Config) : String :=
  match c.SuccessExitMessage with
  | none => "No findings found."
  | some s => s

/-- `Config.inExistingRules`: linear scan for a rule with the same name. -/
def Config.inExistingRules (c : Config) (r : Rule) : Bool :=
  c.Rules.any (fun n => n.Name == r.Name)

/-- The merge loop of `Config.ConfigureRules`: append each default rule
whose name is not already present (checked against the growing list). -/
def Config.mergeDefaults (c : Config) (defaults : List Rule) : Config :=
  defaults.foldl
    (fun acc r => if acc.inExistingRules r then acc else { acc with Rules := acc.Rules ++ [r] })
    c

/-- The index-collection loop of `Config.ConfigureRules`: indices of rules
having some category in `ExcludeCategories` (the inner loop with
`continue RuleLoop` is an existential over the exclusion list). -/
def Config.excludedIndices (c : Config) : List Nat :=
  (c.Rules.enum.filter
    (fun p => c.ExcludeCategories.any (fun ex => p.2.ContainsCategory ex))).map (fun p => p.1)

/-- `Config.RemoveRule`: remove the rule at index `i` while maintaining
order; out-of-range indices are ignored (the Go `i < 0` guard is
unrepresentable for `Nat`). -/
def Config.RemoveRule (c : Config) (i : Nat) : Config :=
  if i ≥ c.Rules.length then c
  else { c with Rules := c.Rules.take i ++ c.Rules.drop (i + 1) }

/-- `Config.ConfigureRules` (the rule list is mutated in place in Go; here
the updated `Config` is returned).  `rule.DefaultRules` is external data,
passed as the `defaults` argument.  Logging and the per-rule
`SetRegexp`/`SetIncludeNote` calls do not affect the rule list. -/
def Config.ConfigureRules (c : Config) (defaults : List Rule) : Config :=
  let c1 := c.mergeDefaults defaults
  c1.excludedIndices.foldl (fun acc i => acc.RemoveRule i) c1

/-! ## Domain resolution (`pkg/ignore`, `getDomainFromWorkingDir`) -/

/-- The first step of `getDomainFromWorkingDir`: `gitRoot += "/"` unless it
already ends with the path separator. -/
def ensureTrailingSep (gitRoot : List Char) : List Char :=
  if strHasSuffix gitRoot [pathSep] then gitRoot else gitRoot ++ [pathSep]

/-- `getDomainFromWorkingDir`: `strings.SplitN(workingDir, gitRoot, 2)`
finds the first occurrence of the separator-terminated `gitRoot`; when one
exists the remainder is split on the path separator with empty segments
discarded, otherwise the domain is empty. -/
def getDomainFromWorkingDir (workingDir gitRoot : List Char) : List (List Char) :=
  match splitFirst (ensureTrailingSep gitRoot) workingDir with
  | some (_, after) => FilterEmptyStrings (splitChar pathSep after)
  | none => []

/-! ## Ignore patterns and matching

`gitignore.Pattern`, `gitignore.ParsePattern`, `gitignore.NewMatcher` and
the matcher's `Match` come from the external go-git collaborator; they are
modelled from the spec: a pattern is an ignore line compiled against a
domain, carrying a negation flag (leading `!`), a directory-only flag
(trailing `/`), and a match kind that is a file-name glob when the body
has no separator and a path glob otherwise; the matcher evaluates the
ordered patterns with later patterns (negations included) overriding
earlier decisions.  The glob forms the spec fixes are modelled: a literal
segment, the single-segment wildcard `*`, and the recursive wildcard
`**`. -/

structure Pattern where
  raw : List Char
  domain : List (List Char)
  negation : Bool
  dirOnly : Bool
  nameGlob : Bool
  segments : List (List Char)
deriving DecidableEq, Repr

/-- Modelled from the spec: `gitignore.ParsePattern` (external go-git
collaborator) — leading `!` negates, trailing separator restricts to
directories, a body without separator is a file-name glob, otherwise the
body's non-empty separator-split segments form a path glob scoped to
`domain`. -/
def ParsePattern (line : List Char) (domain : List (List Char)) : Pattern :=
  let (neg, body) :=
    match line with
    | '!' :: rest => (true, rest)
    | _ => (false, line)
  let (dirOnly, body2) :=
    if strHasSuffix body [pathSep] then (true, body.dropLast) else (false, body)
  { raw := line
    domain := domain
    negation := neg
    dirOnly := dirOnly
    nameGlob := !body2.contains pathSep
    segments := FilterEmptyStrings (splitChar pathSep body2) }

/-- Modelled from the spec: one glob segment against one path segment —
the single-segment wildcard matches any name, a literal matches by
equality. -/
def segMatch (p s : List Char) : Bool :=
  if p = str "*" then true else p == s

/-- Modelled from the spec: a path glob against exactly the whole of
`path`; the recursive wildcard `**` absorbs any number of segments. -/
def segsMatchExact : List (List Char) → List (List Char) → Bool
  | [], path => path.isEmpty
  | p :: ps, path =>
    if p = str "**" then
      (List.range (path.length + 1)).any (fun k => segsMatchExact ps (path.drop k))
    else
      match path with
      | [] => false
      | s :: ss => segMatch p s && segsMatchExact ps ss

/-- Modelled from the spec: a path glob against a proper prefix of `path`
(the glob then names a directory strictly above the queried path). -/
def segsMatchStrictPre (ps : List (List Char)) (path : List (List Char)) : Bool :=
  (List.range path.length).any (fun k => segsMatchExact ps (path.take k))

/-- Modelled from the spec: a file-name glob matches some segment below
the domain; a directory-only pattern needs the matched segment to be a
directory — a non-final segment, or the final one when `isDir`. -/
def nameGlobMatch (g : List Char) (dirOnly : Bool) : List (List Char) → Bool → Bool
  | [], _ => false
  | [s], isDir => segMatch g s && (!dirOnly || isDir)
  | s :: s' :: rest, isDir => segMatch g s || nameGlobMatch g dirOnly (s' :: rest) isDir

/-- Modelled from the spec: whether one pattern matches the path segments
below its domain, honoring the directory-only restriction. -/
def patternBodyMatch (p : Pattern) (rest : List (List Char)) (isDir : Bool) : Bool :=
  if p.nameGlob then
    match p.segments with
    | [g] => nameGlobMatch g p.dirOnly rest isDir
    | _ => false
  else if p.dirOnly then
    segsMatchStrictPre p.segments rest || (segsMatchExact p.segments rest && isDir)
  else
    segsMatchStrictPre p.segments rest || segsMatchExact p.segments rest

/-- Modelled from the spec: the matcher built by `gitignore.NewMatcher` —
patterns are evaluated in order and a later matching pattern (negation
included) overrides an earlier decision; a pattern applies only below its
domain; no matching pattern means not ignored. -/
def matcherMatch (ps : List Pattern) (path : List (List Char)) (isDir : Bool) : Bool :=
  ps.foldl
    (fun res p =>
      if p.domain.isPrefixOf path then
        if patternBodyMatch p (path.drop p.domain.length) isDir then !p.negation else res
      else res)
    false

/-- `Ignore` wraps one compiled matcher. -/
structure Ignore where
  matcher : List Pattern
deriving Repr

/-- `Ignore.Match`: split the queried path on the path separator, discard
empty segments, and query the held matcher. -/
def Ignore.Match (i : Ignore) (f : List Char) (isDir : Bool) : Bool :=
  matcherMatch i.matcher (FilterEmptyStrings (splitChar pathSep f)) isDir

/-! ## Recursive ignore-file collection (`readIgnoreFile` / `readPatterns`)

The `billy.Filesystem` collaborator is modelled as a finite directory
tree.  `fs.Open(fs.Join(path, name))` is the outcome recorded for `name`
in the node that `path` designates (absent names do not exist);
`fs.ReadDir` yields the node's recorded error or its entry list, an entry
being a name paired with `none` for a plain file or `some subtree` for a
directory. -/

inductive FileOutcome where
  | content (lines : List (List Char))
  | notExist
  | failure (e : String)
deriving DecidableEq, Repr

inductive FSNode where
  | mk (files : List (List Char × FileOutcome))
       (readDirErr : Option String)
       (entries : List (List Char × Option FSNode))

def FSNode.files : FSNode → List (List Char × FileOutcome)
  | .mk fs _ _ => fs

def FSNode.readDirErr : FSNode → Option String
  | .mk _ e _ => e

def FSNode.entries : FSNode → List (List Char × Option FSNode)
  | .mk _ _ es => es

/-- `fs.Open` on one of this directory's ignore-file paths. -/
def FSNode.openFile (node : FSNode) (name : List Char) : FileOutcome :=
  match node.files.find? (fun p => p.1 == name) with
  | some p => p.2
  | none => FileOutcome.notExist

/-- `defaultIgnoreFiles`, in the order the source fixes. -/
def defaultIgnoreFiles : List (List Char) :=
  [str ".gitignore", str ".ignore", str ".wokeignore", str ".git/info/exclude"]

/-- `gitDir`, the VCS metadata directory excluded from recursion. -/
def gitDir : List Char := str ".git"

/-- `readIgnoreFile`: open `path/ignoreFile`; a missing file yields no
patterns and no error, any other open failure yields the error; otherwise
each line that does not start with the comment character and has a
non-whitespace character becomes one pattern scoped to `path`. -/
def readIgnoreFile (node : FSNode) (path : List (List Char)) (ignoreFile : List Char) :
    List Pattern × Option String :=
  match node.openFile ignoreFile with
  | .notExist => ([], none)
  | .failure e => ([], some e)
  | .content lines =>
    ((lines.filter
        (fun s => !(str "#").isPrefixOf s && s.any (fun c => !c.isWhitespace))).map
      (fun s => ParsePattern s path),
     none)

/-- The first loop of `readPatterns`: read each recognized ignore filename
in order, appending its patterns, and stop at the first error (returning
the patterns accumulated so far with it). -/
def readIgnoreFilesLoop (node : FSNode) (path : List (List Char)) :
    List (List Char) → List Pattern → List Pattern × Option String
  | [], acc => (acc, none)
  | f :: fs, acc =>
    match readIgnoreFile node path f with
    | (_, some e) => (acc, some e)
    | (subps, none) => readIgnoreFilesLoop node path fs (acc ++ subps)

mutual

/-- `readPatterns`: this directory's ignore files in `defaultIgnoreFiles`
order, then `ReadDir`, then recursion into each listed subdirectory other
than `.git` in listing order; the first error aborts with the patterns
accumulated so far. -/
def readPatterns (node : FSNode) (path : List (List Char)) : List Pattern × Option String :=
  match node with
  | .mk files rdErr entries =>
    match readIgnoreFilesLoop (.mk files rdErr entries) path defaultIgnoreFiles [] with
    | (ps, some e) => (ps, some e)
    | (ps, none) =>
      match rdErr with
      | some e => (ps, some e)
      | none => readEntriesLoop entries path ps

/-- The recursion loop of `readPatterns` over the `ReadDir` entries. -/
def readEntriesLoop (entries : List (List Char × Option FSNode)) (path : List (List Char))
    (acc : List Pattern) : List Pattern × Option String :=
  match entries with
  | [] => (acc, none)
  | (_, none) :: rest => readEntriesLoop rest path acc
  | (name, some subNode) :: rest =>
    if name = gitDir then readEntriesLoop rest path acc
    else
      match readPatterns subNode (path ++ [name]) with
      | (_, some e) => (acc, some e)
      | (subps, none) => readEntriesLoop rest path (acc ++ subps)

end

mutual

/-- The collector of spec section 4.3, stated from the spec's words for
the error-free reading of a tree: this directory's patterns, in
filename-list order then line order, followed by each subdirectory's
patterns recursively in directory-listing order, the VCS metadata
directory excluded.  (The per-file line-to-pattern reading is shared with
`readIgnoreFile`; the collection ORDER is what this definition fixes.)
Used as the specification `readPatterns` is compared against. -/
def collectSpec (node : FSNode) (path : List (List Char)) : List Pattern :=
  match node with
  | .mk files rdErr entries =>
    (defaultIgnoreFiles.map
        (fun f => (readIgnoreFile (.mk files rdErr entries) path f).1)).flatten
      ++ collectSpecEntries entries path

/-- Subdirectory part of `collectSpec`, in directory-listing order. -/
def collectSpecEntries : List (List Char × Option FSNode) → List (List Char) → List Pattern
  | [], _ => []
  | (_, none) :: rest, path => collectSpecEntries rest path
  | (name, some sub) :: rest, path =>
    if name = gitDir then collectSpecEntries rest path
    else collectSpec sub (path ++ [name]) ++ collectSpecEntries rest path

end

/-! ## Git-root location (`IgnoreFactory.GetRootGitDir`)

An absolute directory is modelled by its path segments (`[]` is the
filesystem root `/`); `filepath.Dir` drops the last segment and is the
identity exactly on the root, and `os.Stat(dir/.git)` succeeding is the
`hasGit` predicate.  The factory's `filepathAbs` dependency is the `abs`
argument; `osfs.New` roots a filesystem at the given path string. -/

structure Filesystem where
  root : String
deriving DecidableEq, Repr

def osfsNew (root : String) : Filesystem := ⟨root⟩

/-- Rendering of an absolute directory's segments back to the path string
`osfs.New` receives in the found-`.git` branch. -/
def renderAbsPath (segs : List String) : String :=
  if segs.isEmpty then "/" else segs.foldl (fun acc s => acc ++ "/" ++ s) ""

/-- The walk-upward loop of `GetRootGitDir`: check the candidate for a
`.git` entry; at the filesystem root (its own parent) report `none`,
otherwise continue with the parent. -/
def findGitRootAux (hasGit : List String → Bool) (dir : List String) : Option (List String) :=
  if hasGit dir then some dir
  else if dir.isEmpty then none
  else findGitRootAux hasGit dir.dropLast
termination_by dir.length
decreasing_by
  cases dir with
  | nil => simp at *
  | cons a as => simp [List.length_dropLast]

/-- `IgnoreFactory.GetRootGitDir`: resolve the absolute form of
`workingDir` (propagating a resolution error), walk upward looking for a
`.git` entry, and fall back to a filesystem rooted at the original
`workingDir` when the walk reaches the filesystem root without finding
one. -/
def GetRootGitDir (hasGit : List String → Bool) (abs : String → Except String (List String))
    (workingDir : String) : Except String Filesystem :=
  match abs workingDir with
  | .error e => .error e
  | .ok dir =>
    match findGitRootAux hasGit dir with
    | some d => .ok (osfsNew (renderAbsPath d))
    | none => .ok (osfsNew workingDir)

end Woke

namespace Woke

/-! ## Helper lemmas -/

theorem isPrefixOf_eq_true (l₁ l₂ : List Char) : l₁.isPrefixOf l₂ = true ↔ l₁ <+: l₂ := by
  simp

theorem splitFirst_some_of_pre (sep s : List Char) (h : sep.isPrefixOf s = true) :
    splitFirst sep s = some ([], s.drop sep.length) := by
  cases s with
  | nil => simp [splitFirst, h]
  | cons c rest => simp [splitFirst, h]

theorem splitFirst_none_of_no_occurrence (sep : List Char) :
    ∀ s : List Char, ¬ sep <:+: s → splitFirst sep s = none := by
  intro s
  induction s with
  | nil =>
    intro h
    have hne : sep ≠ [] := by
      rintro rfl
      exact h ⟨[], [], rfl⟩
    have hp : sep.isPrefixOf ([] : List Char) = false := by
      rw [Bool.eq_false_iff]
      intro ht
      exact hne (List.prefix_nil.mp ((isPrefixOf_eq_true sep []).mp ht))
    simp [splitFirst, hp]
  | cons c rest ih =>
    intro h
    have hp : sep.isPrefixOf (c :: rest) = false := by
      rw [Bool.eq_false_iff]
      intro ht
      exact h ((isPrefixOf_eq_true sep (c :: rest)).mp ht).isInfix
    have hrest : ¬ sep <:+: rest := by
      rintro ⟨s1, t1, he⟩
      exact h ⟨c :: s1, t1, by rw [← he]; simp⟩
    simp [splitFirst, hp, ih hrest]

theorem mergeDefaults_pre_aux (ds : List Rule) :
    ∀ c : Config, c.Rules <+: (c.mergeDefaults ds).Rules := by
  induction ds with
  | nil => intro c; exact List.prefix_rfl
  | cons d ds ih =>
    intro c
    show c.Rules <+:
      ((if c.inExistingRules d then c
        else { c with Rules := c.Rules ++ [d] }).mergeDefaults ds).Rules
    by_cases hd : c.inExistingRules d
    · simpa [hd] using ih c
    · simp only [hd, if_false]
      exact (List.prefix_append c.Rules [d]).trans (ih { c with Rules := c.Rules ++ [d] })

theorem mergeDefaults_countP_aux (ds : List Rule) :
    ∀ (c : Config) (nm : String), c.Rules.any (fun n => n.Name == nm) = true →
      ((c.mergeDefaults ds).Rules.countP (fun x => x.Name == nm))
        = c.Rules.countP (fun x => x.Name == nm) := by
  induction ds with
  | nil => intro c nm _; rfl
  | cons d ds ih =>
    intro c nm h
    show (((if c.inExistingRules d then c
        else { c with Rules := c.Rules ++ [d] }).mergeDefaults ds).Rules.countP _) = _
    by_cases hd : c.inExistingRules d
    · simpa [hd] using ih c nm h
    · rw [if_neg hd]
      have hne : (d.Name == nm) = false := by
        rw [Bool.eq_false_iff]
        intro ht
        have hdn : d.Name = nm := eq_of_beq ht
        have : c.inExistingRules d = true := by
          simpa [Config.inExistingRules, hdn] using h
        exact hd this
      have h2 : (c.Rules ++ [d]).any (fun n => n.Name == nm) = true := by
        rcases List.any_eq_true.mp h with ⟨x, hx, hxn⟩
        exact List.any_eq_true.mpr ⟨x, List.mem_append_left _ hx, hxn⟩
      have h3 := ih { c with Rules := c.Rules ++ [d] } nm h2
      rw [h3]
      simp [List.countP_append, List.countP_cons, hne]

theorem mergeDefaults_mem_aux (ds : List Rule) :
    ∀ (c : Config) (r : Rule), (ds.map Rule.Name).Nodup → r ∈ ds →
      c.inExistingRules r = false → r ∈ (c.mergeDefaults ds).Rules := by
  induction ds with
  | nil => intro c r _ hr _; cases hr
  | cons d ds ih =>
    intro c r hnd hr hex
    show r ∈ ((if c.inExistingRules d then c
        else { c with Rules := c.Rules ++ [d] }).mergeDefaults ds).Rules
    rcases List.mem_cons.mp hr with rfl | hr'
    · have hd : c.inExistingRules r = false := hex
      simp only [hd, if_false]
      exact (mergeDefaults_pre_aux ds _).subset (by simp)
    · by_cases hd : c.inExistingRules d
      · simp only [hd, if_true]
        exact ih c r (List.Nodup.of_cons hnd) hr' hex
      · simp only [hd, if_false]
        have hne : (d.Name == r.Name) = false := by
          rw [Bool.eq_false_iff]
          intro ht
          have hmem : d.Name ∈ ds.map Rule.Name := by
            rw [eq_of_beq ht]
            exact List.mem_map_of_mem Rule.Name hr'
          exact (List.nodup_cons.mp hnd).1 hmem
        have hex2 : Config.inExistingRules { c with Rules := c.Rules ++ [d] } r = false := by
          simp only [Config.inExistingRules] at hex ⊢
          simp [List.any_append, hex, hne]
        exact ih { c with Rules := c.Rules ++ [d] } r (List.Nodup.of_cons hnd) hr' hex2

theorem mergeDefaults_nodup_aux (ds : List Rule) :
    ∀ c : Config, (c.Rules.map Rule.Name).Nodup →
      (((c.mergeDefaults ds).Rules.map Rule.Name)).Nodup := by
  induction ds with
  | nil => intro c h; exact h
  | cons d ds ih =>
    intro c h
    show ((((if c.inExistingRules d then c
        else { c with Rules := c.Rules ++ [d] }).mergeDefaults ds).Rules.map Rule.Name)).Nodup
    by_cases hd : c.inExistingRules d
    · simpa [hd] using ih c h
    · simp only [hd, if_false]
      refine ih { c with Rules := c.Rules ++ [d] } ?_
      have hnotmem : d.Name ∉ c.Rules.map Rule.Name := by
        intro hmem
        rcases List.mem_map.mp hmem with ⟨x, hx, hxn⟩
        have : c.inExistingRules d = true := by
          simp only [Config.inExistingRules, List.any_eq_true]
          exact ⟨x, hx, by simp [hxn]⟩
        exact hd this
      simp only [List.map_append, List.map_cons, List.map_nil]
      exact List.Nodup.append h (List.nodup_singleton d.Name)
        (by simpa [List.disjoint_singleton] using hnotmem)

/-! ## Claim theorems (rule-set composition and domain resolution) -/

/-- C1 (code bug): `ConfigureRules` removes excluded rules by the indices
collected before any removal, so earlier removals shift later indices.
With configured rules `alpha` and `beta` both in excluded category `x` and
`gamma` in category `y`, the code keeps `beta` (excluded) and drops `gamma`
(not excluded), contradicting the removal contract. -/
theorem configureRules_multi_exclusion_failure :
    (Config.ConfigureRules
        ⟨[⟨"alpha", ["x"]⟩, ⟨"beta", ["x"]⟩, ⟨"gamma", ["y"]⟩], [], none, false, ["x"]⟩
        []).Rules = [⟨"beta", ["x"]⟩] := by decide

/-- C2 counterexample: `workingDir = "/x/root/proj/sub"` does not begin
with `gitRoot = "/root/proj"` (with or without the trailing separator),
yet the computed domain is `["sub"]`, not the empty domain: `SplitN`
splits at the first occurrence of `gitRoot` anywhere in `workingDir`. -/
theorem getDomain_substring_counterexample :
    (str "/root/proj").isPrefixOf (str "/x/root/proj/sub") = false ∧
    (str "/root/proj/").isPrefixOf (str "/x/root/proj/sub") = false ∧
    getDomainFromWorkingDir (str "/x/root/proj/sub") (str "/root/proj") = [str "sub"] := by
  decide

/-- C2 (amended): after the separator is appended to `gitRoot`, the domain
is the part of `workingDir` after the first occurrence of that string,
split on the path separator with empty segments discarded; when `workingDir`
begins with it this is the suffix after the prefix, and whenever it occurs
nowhere in `workingDir` (rather than: whenever `workingDir` does not begin
with `gitRoot`) the result is the empty domain. -/
theorem getDomainFromWorkingDir_spec (workingDir gitRoot : List Char) :
    ((ensureTrailingSep gitRoot).isPrefixOf workingDir = true →
      getDomainFromWorkingDir workingDir gitRoot
        = FilterEmptyStrings
            (splitChar pathSep (workingDir.drop (ensureTrailingSep gitRoot).length)))
    ∧ (¬ (ensureTrailingSep gitRoot) <:+: workingDir →
      getDomainFromWorkingDir workingDir gitRoot = []) := by
  constructor
  · intro h
    unfold getDomainFromWorkingDir
    rw [splitFirst_some_of_pre _ _ h]
  · intro h
    unfold getDomainFromWorkingDir
    rw [splitFirst_none_of_no_occurrence _ _ h]

/-- Witness for C2's amended theorem: the spec's own examples.
`workingDir = "/root/proj/sub/cur"`, `gitRoot = "/root/proj"` yields
`["sub", "cur"]`; `workingDir` equal to `gitRoot` yields `[]`. -/
theorem getDomainFromWorkingDir_spec_witness :
    getDomainFromWorkingDir (str "/root/proj/sub/cur") (str "/root/proj")
      = [str "sub", str "cur"] ∧
    getDomainFromWorkingDir (str "/root/proj") (str "/root/proj") = [] := by
  constructor
  · have h := (getDomainFromWorkingDir_spec (str "/root/proj/sub/cur") (str "/root/proj")).1
      (by decide)
    rw [h]; decide
  · exact (getDomainFromWorkingDir_spec (str "/root/proj") (str "/root/proj")).2 (by decide)

/-- C3: after the merge step, the configured rules survive unmodified as a
prefix of the composed list (never overwritten); a default whose name is
already configured is not appended (the number of rules bearing its name
is unchanged); and, the built-in default names being pairwise distinct,
every default whose name matches no configured rule is appended. -/
theorem configureRules_default_merge (c : Config) (defaults : List Rule) :
    (c.Rules <+: (c.mergeDefaults defaults).Rules) ∧
    (∀ r ∈ defaults, c.inExistingRules r = true →
      ((c.mergeDefaults defaults).Rules.countP (fun x => x.Name == r.Name))
        = c.Rules.countP (fun x => x.Name == r.Name)) ∧
    ((defaults.map Rule.Name).Nodup → ∀ r ∈ defaults, c.inExistingRules r = false →
      r ∈ (c.mergeDefaults defaults).Rules) := by
  refine ⟨mergeDefaults_pre_aux defaults c, ?_, ?_⟩
  · intro r _ h
    exact mergeDefaults_countP_aux defaults c r.Name h
  · intro hnd r hr hex
    exact mergeDefaults_mem_aux defaults c r hnd hr hex

/-- Witness for C3: configured rule `alpha` with a default of the same name
and a fresh default `beta`. -/
theorem configureRules_default_merge_witness :
    ((⟨[⟨"alpha", ["x"]⟩], [], none, false, []⟩ : Config).Rules <+:
      ((⟨[⟨"alpha", ["x"]⟩], [], none, false, []⟩ : Config).mergeDefaults
        [⟨"alpha", ["d"]⟩, ⟨"beta", []⟩]).Rules) ∧
    (((⟨[⟨"alpha", ["x"]⟩], [], none, false, []⟩ : Config).mergeDefaults
        [⟨"alpha", ["d"]⟩, ⟨"beta", []⟩]).Rules.countP (fun x => x.Name == "alpha"))
      = (⟨[⟨"alpha", ["x"]⟩], [], none, false, []⟩ : Config).Rules.countP
          (fun x => x.Name == "alpha") ∧
    (⟨"beta", []⟩ : Rule) ∈
      ((⟨[⟨"alpha", ["x"]⟩], [], none, false, []⟩ : Config).mergeDefaults
        [⟨"alpha", ["d"]⟩, ⟨"beta", []⟩]).Rules := by
  refine ⟨(configureRules_default_merge _ _).1, ?_, ?_⟩
  · exact (configureRules_default_merge _ _).2.1 ⟨"alpha", ["d"]⟩ (by decide) (by decide)
  · exact (configureRules_default_merge _ _).2.2 (by decide) ⟨"beta", []⟩ (by decide) (by decide)

/-- C4 counterexample: a config whose rule list already holds two rules
named `dup` still holds both after the merge step, so names are not
pairwise unique for every Config. -/
theorem merge_duplicate_names_counterexample :
    ¬ ((((⟨[⟨"dup", []⟩, ⟨"dup", ["c"]⟩], [], none, false, []⟩ : Config).mergeDefaults
        [⟨"other", []⟩]).Rules.map Rule.Name).Nodup) := by decide

/-- C4 (amended): for every Config whose configured rule names are pairwise
unique, rule names are pairwise unique in the composed list after the merge
step (the merge appends a default only when its name is absent from the
current list, so it introduces no duplicate). -/
theorem mergeDefaults_names_nodup (c : Config) (defaults : List Rule)
    (h : (c.Rules.map Rule.Name).Nodup) :
    (((c.mergeDefaults defaults).Rules.map Rule.Name)).Nodup :=
  mergeDefaults_nodup_aux defaults c h

/-- Witness for C4's amended theorem at a concrete config and default set. -/
theorem mergeDefaults_names_nodup_witness :
    ((((⟨[⟨"alpha", []⟩, ⟨"beta", []⟩], [], none, false, []⟩ : Config).mergeDefaults
        [⟨"beta", ["d"]⟩, ⟨"gamma", []⟩]).Rules.map Rule.Name)).Nodup :=
  mergeDefaults_names_nodup ⟨[⟨"alpha", []⟩, ⟨"beta", []⟩], [], none, false, []⟩
    [⟨"beta", ["d"]⟩, ⟨"gamma", []⟩] (by decide)

/-- C9: `GetSuccessExitMessage` returns "No findings found." exactly when
no custom message is configured, and the configured string (including the
empty string) otherwise. -/
theorem getSuccessExitMessage_spec (c : Config) :
    (c.SuccessExitMessage = none → c.GetSuccessExitMessage = "No findings found.") ∧
    (∀ s, c.SuccessExitMessage = some s → c.GetSuccessExitMessage = s) := by
  refine ⟨fun h => ?_, fun s h => ?_⟩ <;> simp [Config.GetSuccessExitMessage, h]

/-- Witness for C9: the default message, and a configured empty message. -/
theorem getSuccessExitMessage_spec_witness :
    Config.GetSuccessExitMessage ⟨[], [], none, false, []⟩ = "No findings found." ∧
    Config.GetSuccessExitMessage ⟨[], [], some "", false, []⟩ = "" :=
  ⟨(getSuccessExitMessage_spec ⟨[], [], none, false, []⟩).1 rfl,
   (getSuccessExitMessage_spec ⟨[], [], some "", false, []⟩).2 "" rfl⟩

/-! ## Claim theorems (git-root location, pattern collection, matching) -/

theorem findGitRootAux_none (hasGit : List String → Bool) :
    ∀ dir : List String, (∀ d, d <+: dir → hasGit d = false) →
      findGitRootAux hasGit dir = none := by
  intro dir
  induction dir using List.reverseRecOn with
  | nil =>
    intro h
    rw [findGitRootAux]
    simp [h [] List.prefix_rfl]
  | append_singleton xs x ih =>
    intro h
    rw [findGitRootAux]
    simp [h _ List.prefix_rfl, List.dropLast_concat]
    exact ih fun d hd => h d (hd.trans (List.prefix_append xs [x]))

/-- C5: when the absolute form of `workingDir` resolves and no ancestor of
it (itself included, up to the filesystem root) has a `.git` entry,
`GetRootGitDir` returns a filesystem rooted at the original `workingDir`
with no error; and an error is returned only when the absolute path could
not be resolved. -/
theorem getRootGitDir_fallback (hasGit : List String → Bool)
    (abs : String → Except String (List String)) (workingDir : String) :
    (∀ dir, abs workingDir = .ok dir → (∀ d, d <+: dir → hasGit d = false) →
      GetRootGitDir hasGit abs workingDir = .ok (osfsNew workingDir)) ∧
    (∀ e, GetRootGitDir hasGit abs workingDir = .error e → abs workingDir = .error e) := by
  constructor
  · intro dir hok hnone
    simp only [GetRootGitDir, hok, findGitRootAux_none hasGit dir hnone]
  · intro e herr
    unfold GetRootGitDir at herr
    cases habs : abs workingDir with
    | error e2 =>
      rw [habs] at herr
      simp only [Except.error.injEq] at herr
      rw [herr]
    | ok dir =>
      rw [habs] at herr
      simp only [] at herr
      cases hf : findGitRootAux hasGit dir <;> rw [hf] at herr <;> simp at herr

/-- Witness for C5: a two-segment working directory with no `.git`
anywhere falls back to the original (relative) `workingDir`; with a
failing resolver the error is the resolver's. -/
theorem getRootGitDir_fallback_witness :
    GetRootGitDir (fun _ => false) (fun _ => Except.ok ["a", "b"]) "a/b"
      = Except.ok (osfsNew "a/b") ∧
    (fun (_ : String) => (Except.error "resolve" : Except String (List String))) "a/b"
      = Except.error "resolve" :=
  ⟨(getRootGitDir_fallback (fun _ => false) (fun _ => Except.ok ["a", "b"]) "a/b").1
      ["a", "b"] rfl (fun _ _ => rfl),
   (getRootGitDir_fallback (fun _ => false)
      (fun _ => (Except.error "resolve" : Except String (List String))) "a/b").2 "resolve" rfl⟩

theorem readIgnoreFilesLoop_all_missing (node : FSNode) (path : List (List Char)) :
    ∀ (fs : List (List Char)) (acc : List Pattern),
      (∀ f ∈ fs, node.openFile f = .notExist) →
      readIgnoreFilesLoop node path fs acc = (acc, none) := by
  intro fs
  induction fs with
  | nil => intro acc _; rfl
  | cons f fs ih =>
    intro acc h
    have h1 : node.openFile f = .notExist := h f (by simp)
    simp only [readIgnoreFilesLoop, readIgnoreFile, h1, List.append_nil]
    exact ih acc (fun g hg => h g (List.mem_cons_of_mem f hg))

theorem readIgnoreFilesLoop_failure (node : FSNode) (path : List (List Char)) :
    ∀ (fsBefore : List (List Char)) (f : List Char) (fsAfter : List (List Char))
      (acc : List Pattern) (e : String),
      (∀ g ∈ fsBefore, node.openFile g = .notExist) → node.openFile f = .failure e →
      readIgnoreFilesLoop node path (fsBefore ++ f :: fsAfter) acc = (acc, some e) := by
  intro fsBefore
  induction fsBefore with
  | nil =>
    intro f fsAfter acc e _ hf
    simp only [List.nil_append, readIgnoreFilesLoop, readIgnoreFile, hf]
  | cons g gs ih =>
    intro f fsAfter acc e h hf
    have h1 : node.openFile g = .notExist := h g (by simp)
    simp only [List.cons_append, readIgnoreFilesLoop, readIgnoreFile, h1, List.append_nil]
    exact ih f fsAfter acc e (fun x hx => h x (List.mem_cons_of_mem g hx)) hf

/-- C6: a missing ignore file yields no patterns and no error, any other
open failure yields that error; within `readPatterns`, when every
recognized ignore file is missing the result is the same as on the node
with no files at all (no contribution, no abort), while a failing ignore
file (after missing ones) aborts the node's collection with that error. -/
theorem readIgnoreFile_error_handling (node : FSNode) (path : List (List Char)) :
    (∀ f, node.openFile f = .notExist → readIgnoreFile node path f = ([], none)) ∧
    (∀ f e, node.openFile f = .failure e → readIgnoreFile node path f = ([], some e)) ∧
    ((∀ f ∈ defaultIgnoreFiles, node.openFile f = .notExist) →
      readPatterns node path = readPatterns (FSNode.mk [] node.readDirErr node.entries) path) ∧
    (∀ (fsBefore : List (List Char)) (f : List Char) (fsAfter : List (List Char)) (e : String),
      defaultIgnoreFiles = fsBefore ++ f :: fsAfter →
      (∀ g ∈ fsBefore, node.openFile g = .notExist) → node.openFile f = .failure e →
      readPatterns node path = ([], some e)) := by
  refine ⟨?_, ?_, ?_, ?_⟩
  · intro f hf
    simp only [readIgnoreFile, hf]
  · intro f e hf
    simp only [readIgnoreFile, hf]
  · cases node with
    | mk files rdErr entries =>
      intro hall
      have h1 := readIgnoreFilesLoop_all_missing (.mk files rdErr entries) path
        defaultIgnoreFiles [] hall
      have h2 := readIgnoreFilesLoop_all_missing (.mk [] rdErr entries) path
        defaultIgnoreFiles [] (fun f _ => rfl)
      simp only [FSNode.readDirErr, FSNode.entries]
      rw [readPatterns, readPatterns, h1, h2]
  · cases node with
    | mk files rdErr entries =>
      intro fsBefore f fsAfter e hdef hbefore hf
      have h1 := readIgnoreFilesLoop_failure (.mk files rdErr entries) path
        fsBefore f fsAfter [] e hbefore hf
      rw [readPatterns, hdef, h1]

/-- Witness for C6: a node with no files at all (so `.gitignore` is
missing), and a node whose `.ignore` fails with an i/o error while
`.gitignore` is missing. -/
theorem readIgnoreFile_error_handling_witness :
    readIgnoreFile (FSNode.mk [] none []) [] (str ".gitignore") = ([], none) ∧
    readPatterns (FSNode.mk [(str ".ignore", FileOutcome.failure "io")] none []) []
      = ([], some "io") := by
  constructor
  · exact (readIgnoreFile_error_handling (FSNode.mk [] none []) []).1 (str ".gitignore") rfl
  · exact (readIgnoreFile_error_handling
        (FSNode.mk [(str ".ignore", FileOutcome.failure "io")] none []) []).2.2.2
      [str ".gitignore"] (str ".ignore") [str ".wokeignore", str ".git/info/exclude"] "io"
      (by decide) (by decide) (by decide)

theorem readIgnoreFilesLoop_ok (node : FSNode) (path : List (List Char)) :
    ∀ (fs : List (List Char)) (acc : List Pattern),
      (readIgnoreFilesLoop node path fs acc).2 = none →
      (readIgnoreFilesLoop node path fs acc).1
        = acc ++ (fs.map (fun f => (readIgnoreFile node path f).1)).flatten := by
  intro fs
  induction fs with
  | nil => intro acc _; simp [readIgnoreFilesLoop]
  | cons f fs ih =>
    intro acc h
    rcases hf : readIgnoreFile node path f with ⟨subps, ofe⟩
    cases ofe with
    | some e =>
      rw [readIgnoreFilesLoop, hf] at h
      simp at h
    | none =>
      rw [readIgnoreFilesLoop, hf] at h ⊢
      simp only at h ⊢
      rw [ih (acc ++ subps) h]
      simp [hf, List.append_assoc]

theorem readEntriesLoop_ordering (path : List (List Char)) :
    ∀ (entries : List (List Char × Option FSNode)),
      (∀ p ∈ entries, ∀ sub : FSNode, p.2 = some sub →
        ∀ path2, (readPatterns sub path2).2 = none →
          (readPatterns sub path2).1 = collectSpec sub path2) →
      ∀ acc : List Pattern, (readEntriesLoop entries path acc).2 = none →
        (readEntriesLoop entries path acc).1 = acc ++ collectSpecEntries entries path := by
  intro entries
  induction entries with
  | nil => intro _ acc _; simp [readEntriesLoop, collectSpecEntries]
  | cons p rest ih =>
    intro hsub acc h
    rcases p with ⟨name, osub⟩
    cases osub with
    | none =>
      rw [readEntriesLoop] at h ⊢
      rw [collectSpecEntries]
      exact ih (fun q hq => hsub q (List.mem_cons_of_mem _ hq)) acc h
    | some sub =>
      by_cases hname : name = gitDir
      · rw [readEntriesLoop, if_pos hname] at h ⊢
        rw [collectSpecEntries, if_pos hname]
        exact ih (fun q hq => hsub q (List.mem_cons_of_mem _ hq)) acc h
      · rcases hrp : readPatterns sub (path ++ [name]) with ⟨subps, oe⟩
        cases oe with
        | some e =>
          rw [readEntriesLoop, if_neg hname, hrp] at h
          simp at h
        | none =>
          rw [readEntriesLoop, if_neg hname, hrp] at h ⊢
          simp only at h ⊢
          rw [collectSpecEntries, if_neg hname]
          have hrec := hsub (name, some sub) (by simp) sub rfl (path ++ [name])
            (by rw [hrp])
          rw [hrp] at hrec
          simp only at hrec
          rw [ih (fun q hq => hsub q (List.mem_cons_of_mem _ hq)) (acc ++ subps) h, hrec]
          simp [List.append_assoc]

/-- C7: an error-free `readPatterns` run returns exactly the spec's
ordering — this directory's patterns first, in the fixed ignore-filename
order and line order, then each non-`.git` subdirectory's patterns
recursively in directory-listing order; hence at any nesting depth every
ancestor pattern precedes every descendant pattern. -/
theorem readPatterns_ordering (node : FSNode) : ∀ path : List (List Char),
    (readPatterns node path).2 = none →
    (readPatterns node path).1 = collectSpec node path := by
  cases node with
  | mk files rdErr entries =>
    intro path h
    rcases hl : readIgnoreFilesLoop (.mk files rdErr entries) path defaultIgnoreFiles []
      with ⟨ps, oe⟩
    cases oe with
    | some e =>
      rw [readPatterns, hl] at h
      simp at h
    | none =>
      cases rdErr with
      | some e =>
        rw [readPatterns, hl] at h
        simp at h
      | none =>
        rw [readPatterns, hl] at h ⊢
        simp only at h ⊢
        rw [collectSpec]
        have hps := readIgnoreFilesLoop_ok (.mk files none entries) path defaultIgnoreFiles []
          (by rw [hl])
        rw [hl] at hps
        simp only [List.nil_append] at hps
        rw [readEntriesLoop_ordering path entries
          (fun p _ sub _ path2 hnone => readPatterns_ordering sub path2 hnone) ps h, hps]
termination_by sizeOf node
decreasing_by
  rename_i hmem heq
  have h1 := List.sizeOf_lt_of_mem hmem
  cases p with
  | mk nm osub =>
    simp only at heq
    subst heq
    simp at h1 ⊢
    omega

/-- Witness for C7: a root with one ignore file, one subdirectory carrying
its own ignore file, a `.git` subdirectory (skipped), and a plain file. -/
theorem readPatterns_ordering_witness :
    (readPatterns
        (FSNode.mk [(str ".gitignore", FileOutcome.content [str "a.txt"])] none
          [(str "sub", some (FSNode.mk
              [(str ".wokeignore", FileOutcome.content [str "b.txt"])] none [])),
           (str ".git", some (FSNode.mk [(str ".gitignore",
              FileOutcome.content [str "nope"])] none [])),
           (str "plain", none)]) []).1
      = collectSpec
        (FSNode.mk [(str ".gitignore", FileOutcome.content [str "a.txt"])] none
          [(str "sub", some (FSNode.mk
              [(str ".wokeignore", FileOutcome.content [str "b.txt"])] none [])),
           (str ".git", some (FSNode.mk [(str ".gitignore",
              FileOutcome.content [str "nope"])] none [])),
           (str "plain", none)]) [] :=
  readPatterns_ordering _ []
    (by simp [readPatterns, readEntriesLoop, readIgnoreFilesLoop, readIgnoreFile,
      defaultIgnoreFiles, FSNode.openFile, FSNode.files, gitDir, str])

/-- C8: `Match` splits the path on the separator, discards empty segments,
and evaluates the compiled patterns in order with last-match-wins and
negation: `[a/*, !a/keep.txt]` does not match `a/keep.txt`; `[a/*]` alone
matches `a/x` and not `b/x`. -/
theorem ignoreMatch_precedence_examples :
    Ignore.Match ⟨[ParsePattern (str "a/*") [], ParsePattern (str "!a/keep.txt") []]⟩
        (str "a/keep.txt") false = false ∧
    Ignore.Match ⟨[ParsePattern (str "a/*") []]⟩ (str "a/x") false = true ∧
    Ignore.Match ⟨[ParsePattern (str "a/*") []]⟩ (str "b/x") false = false := by
  decide

/-- C10: `Ignore.Match` depends on the queried path only through its
non-empty separator-split segments, so paths with the same segments —
leading, trailing or repeated separators notwithstanding — get the same
answer for every matcher state and directory flag. -/
theorem ignoreMatch_segment_invariance (i : Ignore) (isDir : Bool) (f g : List Char)
    (h : FilterEmptyStrings (splitChar pathSep f) = FilterEmptyStrings (splitChar pathSep g)) :
    i.Match f isDir = i.Match g isDir := by
  unfold Ignore.Match
  rw [h]

/-- Witness for C10: `a/b` versus `//a//b/` on a one-pattern matcher. -/
theorem ignoreMatch_segment_invariance_witness :
    FilterEmptyStrings (splitChar pathSep (str "a/b"))
      = FilterEmptyStrings (splitChar pathSep (str "//a//b/")) ∧
    Ignore.Match ⟨[ParsePattern (str "a/*") []]⟩ (str "a/b") false
      = Ignore.Match ⟨[ParsePattern (str "a/*") []]⟩ (str "//a//b/") false :=
  ⟨by decide,
   ignoreMatch_segment_invariance ⟨[ParsePattern (str "a/*") []]⟩ false
     (str "a/b") (str "//a//b/") (by decide)⟩

end Woke
